import Mathlib

/-!
Verification of the resume-ranking pipeline of the Team-Trishool repository.

The repository holds two pipeline variants:
  * v01: `Automated Resume Relevance Check -- v01/updated_main.py`
  * v02: `Automated Resume Relevance Check --v02/enhanced_main.py`

Text is modelled as `List Char` (Python `str`).  Python floats (semantic
distances / relevance scores) are modelled as `Rat`; the claims under study
involve only order comparisons and exact rational arithmetic on them.
Python's `\w` regex class is modelled over the ASCII alphanumerics plus
underscore, which covers every string the pipeline's own literals and the
claims exercise.  External collaborators (file parsing, the embedding model,
the Chroma vector index, the generative model) are modelled as oracle inputs:
the similarity query outcome is passed in as a value
`Except Unit (List ScoredChunk)`.
-/

abbrev Str := List Char

/-- Python `\w` (ASCII fragment): letters, digits, underscore. -/
def isWordChar (c : Char) : Bool := c.isAlphanum || c = '_'

/-- Python `str.lower()` (ASCII fragment). -/
def lowerStr (s : Str) : Str := s.map Char.toLower

/-- Python `str.strip()`: remove leading and trailing whitespace. -/
def stripStr (s : Str) : Str :=
  ((s.dropWhile Char.isWhitespace).reverse.dropWhile Char.isWhitespace).reverse

/-- The `(?<!\w)` lookbehind of the skill pattern: the character directly
before the match (if any) must not be a word character. -/
def boundaryOkBefore : Option Char → Bool
  | none => true
  | some c => ! isWordChar c

/-- The `(?!\w)` lookahead of the skill pattern: the character directly after
the match (if any) must not be a word character. -/
def tokenAfterOk : Str → Bool
  | [] => true
  | c :: _ => ! isWordChar c

/-- The escaped skill matches literally at the head of `text` and is followed
by a non-word boundary.  `re.escape` makes the skill a literal, so the body of
the pattern `(?<!\w)escaped(?!\w)` is plain substring equality. -/
def patHere (pat text : Str) : Bool :=
  List.isPrefixOf pat text && tokenAfterOk (text.drop pat.length)

/-- `re.search` of the pattern `(?<!\w)escaped_skill(?!\w)`: scan every
position of the text, carrying the previous character for the lookbehind. -/
def tokenScan (prev : Option Char) (pat : Str) : Str → Bool
  | [] => boundaryOkBefore prev && patHere pat []
  | c :: rest =>
    (boundaryOkBefore prev && patHere pat (c :: rest)) || tokenScan (some c) pat rest

/-- Whether the (already lowered) skill occurs in the (already lowered) resume
text as a whole token, i.e. `re.search(r'(?<!\w)' + re.escape(sl) + r'(?!\w)', tl)`
succeeds. -/
def skillFound (tl : Str) (sl : Str) : Bool := tokenScan none sl tl

/-- The matched-skills loop of `ResumeRanker.improved_skill_match` (v01):
skills whose stripped form is empty are skipped; a matching skill is appended
in its *stripped* form. -/
def matchedSkillsV01 (tl : Str) : List Str → List Str
  | [] => []
  | skill :: rest =>
    let sl := lowerStr (stripStr skill)
    if sl = [] then matchedSkillsV01 tl rest
    else if skillFound tl sl then stripStr skill :: matchedSkillsV01 tl rest
    else matchedSkillsV01 tl rest

/-- `ResumeRanker.improved_skill_match` (v01 lines 206-227).  Returns
`(matched_skills, missing_skills)`; `missing_skills` keeps every *original*
skill not present in `matched_skills`. -/
def improved_skill_match (resume_text : Str) (skills : List Str) : List Str × List Str :=
  let matched := matchedSkillsV01 (lowerStr resume_text) skills
  (matched, skills.filter (fun skill => ! matched.contains skill))

/-- The inline skill matching of `ResumeWorkflow.skill_rerank` (v02 lines
196-206): matching skills are kept in their *original* form. -/
def skill_match_v02 (full_text : Str) (required_skills : List Str) : List Str × List Str :=
  let tl := lowerStr full_text
  let matched := required_skills.filter (fun skill => skillFound tl (lowerStr (stripStr skill)))
  (matched, required_skills.filter (fun s => ! matched.contains s))

/-- Declarative reading of the whole-token test: the skill occurs at some
position of the text, with no word character immediately before the match
span and none immediately after it. -/
def tokenPresent (text pat : Str) : Prop :=
  ∃ i, List.isPrefixOf pat (text.drop i) = true
    ∧ (i = 0 ∨ ∃ c, text[i - 1]? = some c ∧ isWordChar c = false)
    ∧ (∀ c, text[i + pat.length]? = some c → isWordChar c = false)

lemma tokenAfterOk_iff (l : Str) :
    tokenAfterOk l = true ↔ ∀ c, l[0]? = some c → isWordChar c = false := by
  cases l with
  | nil => simp [tokenAfterOk]
  | cons c rest =>
    simp only [tokenAfterOk, List.getElem?_cons_zero, Bool.not_eq_true']
    constructor
    · rintro h c' hc'
      cases hc'
      exact h
    · intro h
      exact h c rfl

lemma patHere_iff (pat text : Str) :
    patHere pat text = true ↔
      List.isPrefixOf pat text = true
        ∧ (∀ c, text[pat.length]? = some c → isWordChar c = false) := by
  unfold patHere
  rw [Bool.and_eq_true, tokenAfterOk_iff]
  constructor
  · rintro ⟨h1, h2⟩
    refine ⟨h1, fun c hc => h2 c ?_⟩
    rw [List.getElem?_drop]
    simpa using hc
  · rintro ⟨h1, h2⟩
    refine ⟨h1, fun c hc => h2 c ?_⟩
    rw [List.getElem?_drop] at hc
    simpa using hc

lemma tokenScan_iff (pat : Str) : ∀ (text : Str) (prev : Option Char),
    tokenScan prev pat text = true ↔
      ((boundaryOkBefore prev = true ∧ patHere pat text = true) ∨
        ∃ i c, text[i]? = some c ∧ isWordChar c = false ∧
          patHere pat (text.drop (i + 1)) = true) := by
  intro text
  induction text with
  | nil =>
    intro prev
    simp [tokenScan, Bool.and_eq_true]
  | cons a rest ih =>
    intro prev
    simp only [tokenScan, Bool.or_eq_true, Bool.and_eq_true, ih (some a)]
    constructor
    · rintro (⟨hb, hp⟩ | ⟨hb, hp⟩ | ⟨i, c, hc, hw, hp⟩)
      · exact Or.inl ⟨hb, hp⟩
      · refine Or.inr ⟨0, a, by simp, ?_, ?_⟩
        · simpa [boundaryOkBefore] using hb
        · simpa using hp
      · refine Or.inr ⟨i + 1, c, ?_, hw, ?_⟩
        · simpa using hc
        · simpa using hp
    · rintro (⟨hb, hp⟩ | ⟨i, c, hc, hw, hp⟩)
      · exact Or.inl ⟨hb, hp⟩
      · cases i with
        | zero =>
          rw [List.getElem?_cons_zero] at hc
          injection hc with hc
          subst hc
          refine Or.inr (Or.inl ⟨?_, ?_⟩)
          · simp [boundaryOkBefore, hw]
          · simpa using hp
        | succ j =>
          refine Or.inr (Or.inr ⟨j, c, ?_, hw, ?_⟩)
          · simpa using hc
          · simpa using hp

/-- The recursive scan agrees with the declarative whole-token predicate. -/
lemma skillFound_iff_tokenPresent (text pat : Str) :
    skillFound text pat = true ↔ tokenPresent text pat := by
  unfold skillFound tokenPresent
  rw [tokenScan_iff]
  constructor
  · rintro (⟨-, hp⟩ | ⟨i, c, hc, hw, hp⟩)
    · rw [patHere_iff] at hp
      exact ⟨0, by simpa using hp.1, Or.inl rfl, by simpa using hp.2⟩
    · rw [patHere_iff] at hp
      refine ⟨i + 1, hp.1, Or.inr ⟨c, by simpa using hc, hw⟩, ?_⟩
      intro c' hc'
      apply hp.2
      rw [List.getElem?_drop]
      exact hc'
  · rintro ⟨i, hpre, hb, hafter⟩
    cases i with
    | zero =>
      refine Or.inl ⟨rfl, ?_⟩
      rw [patHere_iff]
      refine ⟨by simpa using hpre, ?_⟩
      intro c hc
      exact hafter c (by simpa using hc)
    | succ j =>
      rcases hb with h0 | ⟨c, hc, hw⟩
      · exact absurd h0 (by omega)
      · refine Or.inr ⟨j, c, by simpa using hc, hw, ?_⟩
        rw [patHere_iff]
        refine ⟨hpre, ?_⟩
        intro c' hc'
        apply hafter
        rw [List.getElem?_drop] at hc'
        exact hc'

/-- The matched/missing pair preserves the relative order of `skills` (both
components are sublists) and partitions `skills` exactly: membership in
`skills` is membership in exactly one component. -/
def skillPartition (pair : List Str × List Str) (skills : List Str) : Prop :=
  pair.1.Sublist skills ∧ pair.2.Sublist skills
    ∧ (∀ s, s ∈ skills ↔ (s ∈ pair.1 ∨ s ∈ pair.2))
    ∧ (∀ s, ¬ (s ∈ pair.1 ∧ s ∈ pair.2))

lemma matchedSkillsV01_eq_filter (tl : Str) (skills : List Str)
    (h : ∀ s ∈ skills, s ≠ [] ∧ stripStr s = s) :
    matchedSkillsV01 tl skills
      = skills.filter (fun s => skillFound tl (lowerStr (stripStr s))) := by
  induction skills with
  | nil => rfl
  | cons a l ih =>
    obtain ⟨hne, hst⟩ := h a (List.mem_cons_self a l)
    have hl : ∀ s ∈ l, s ≠ [] ∧ stripStr s = s := fun s hs => h s (List.mem_cons_of_mem a hs)
    have hsl : ¬ lowerStr a = [] := by
      simpa [lowerStr] using hne
    by_cases hf : skillFound tl (lowerStr a) = true
    · simp [matchedSkillsV01, hst, hsl, hf, ih hl]
    · simp [matchedSkillsV01, hst, hsl, hf, ih hl]

lemma partition_of_filter (skills m : List Str) (p : Str → Bool)
    (hm : m = skills.filter p) :
    skillPartition (m, skills.filter (fun s => ! m.contains s)) skills := by
  subst hm
  refine ⟨List.filter_sublist _, List.filter_sublist _, ?_, ?_⟩
  · intro s
    constructor
    · intro hs
      by_cases hmem : s ∈ skills.filter p
      · exact Or.inl hmem
      · refine Or.inr ?_
        rw [List.mem_filter]
        refine ⟨hs, ?_⟩
        rw [Bool.not_eq_true']
        rw [← Bool.not_eq_true]
        intro hcon
        exact hmem (List.elem_iff.mp hcon)
    · rintro (hs | hs)
      · exact (List.filter_sublist _).mem hs
      · exact (List.filter_sublist _).mem hs
  · rintro s ⟨h1, h2⟩
    rw [List.mem_filter] at h2
    have h3 := h2.2
    rw [Bool.not_eq_true'] at h3
    rw [← Bool.not_eq_true] at h3
    exact h3 (List.elem_iff.mpr h1)

/-- C1.  The claim as frozen is false: with `required_skills = [" java "]` and
resume text `"java"`, v01 returns `matched = ["java"]` (the *stripped* skill)
and `missing = [" java "]` (the *original* skill), so the union of the two
output lists is not the trimmed-and-nonempty skill list, and after trimming
the same skill appears on both sides. -/
theorem C1_counterexample :
    ¬ (∀ s : Str,
        (s ∈ (improved_skill_match "java".toList [" java ".toList]).1
          ∨ s ∈ (improved_skill_match "java".toList [" java ".toList]).2)
        ↔ s ∈ ([" java ".toList].map stripStr).filter (fun s => ! s.isEmpty)) := by
  intro h
  have h2 := (h " java ".toList).mp (Or.inr (by decide))
  exact absurd h2 (by decide)

/-- C1 (amended).  For every resume text and every required-skills sequence
whose skills are non-empty and carry no leading or trailing whitespace (which
is what both endpoints feed the matcher after their comma-split-and-strip
parsing), both the v01 matcher `improved_skill_match` and the v02 inline
matcher return `(matched, missing)` preserving the relative order of
`required_skills` and partitioning it exactly: the union of the two outputs is
`required_skills` as a set and their intersection is empty. -/
theorem C1_skill_partition (text : Str) (skills : List Str)
    (h : ∀ s ∈ skills, s ≠ [] ∧ stripStr s = s) :
    skillPartition (improved_skill_match text skills) skills
      ∧ skillPartition (skill_match_v02 text skills) skills := by
  constructor
  · unfold improved_skill_match
    exact partition_of_filter skills _ _ (matchedSkillsV01_eq_filter _ _ h)
  · unfold skill_match_v02
    exact partition_of_filter skills _ _ rfl

/-- Witness for C1 at a concrete input. -/
theorem C1_skill_partition_witness :
    (∀ s ∈ ["python".toList, "aws".toList], s ≠ [] ∧ stripStr s = s)
      ∧ (skillPartition
            (improved_skill_match "uses python daily".toList ["python".toList, "aws".toList])
            ["python".toList, "aws".toList]
          ∧ skillPartition
            (skill_match_v02 "uses python daily".toList ["python".toList, "aws".toList])
            ["python".toList, "aws".toList]) :=
  ⟨by decide, C1_skill_partition "uses python daily".toList
    ["python".toList, "aws".toList] (by decide)⟩

/-- C6.  Skill matching is a case-insensitive whole-token containment test:
the embedded `re.search` of `(?<!\w)escaped_skill(?!\w)` succeeds exactly when
the (literal) skill occurs at some position with no word character immediately
before or after the match span; in particular "javascript developer" does not
match the required skill "java", and a text containing exactly "c++" matches
the required skill "C++" case-insensitively. -/
theorem C6_whole_token_matching :
    (∀ text pat : Str, skillFound text pat = true ↔ tokenPresent text pat)
    ∧ improved_skill_match "javascript developer".toList ["java".toList]
        = ([], ["java".toList])
    ∧ improved_skill_match "c++".toList ["C++".toList] = (["C++".toList], []) :=
  ⟨skillFound_iff_tokenPresent, by decide, by decide⟩

/-- Witness for C6: the token-present characterization instantiated at a
concrete text and skill. -/
theorem C6_whole_token_matching_witness :
    tokenPresent "ab c++".toList "c++".toList :=
  (C6_whole_token_matching.1 "ab c++".toList "c++".toList).mp (by decide)

/-- C7.  The claim as frozen is false: the lookaround boundaries only exclude
word characters, and '.' is not a word character, so in the resume text
"vb.net" the bare required skill "net" IS reported as matched. -/
theorem C7_counterexample :
    "net".toList ∈ (improved_skill_match "vb.net".toList ["net".toList]).1 := by
  decide

/-- C7 (amended).  Under the whole-token test a resume text containing
"vb.net" DOES match the bare required skill "net", because the preceding '.'
is not an alphanumeric/underscore character; only occurrences flanked by word
characters are rejected, e.g. "internet" does not match "net". -/
theorem C7_dot_is_a_boundary :
    improved_skill_match "vb.net".toList ["net".toList] = (["net".toList], [])
      ∧ improved_skill_match "internet".toList ["net".toList] = ([], ["net".toList]) :=
  ⟨by decide, by decide⟩

/-- An entry of v01's `re_ranking_list` (one dict per semantic candidate). -/
structure ReRankV01 where
  filename : Str
  raw_distance : Rat
  skill_match_count : Nat
  matched_skills : List Str
  missing_skills : List Str
  key_matching_chunk : Str
deriving DecidableEq

/-- An entry of v02's `re_ranking_list`. -/
structure ReRankV02 where
  filename : Str
  score : Rat
  key_matching_chunk : Str
  skill_match_count : Nat
  matched_skills : List Str
  missing_skills : List Str
deriving DecidableEq

/-- The ascending order on the v01 sort key `(-skill_match_count, raw_distance)`:
more matched skills first, then lower distance first. -/
abbrev keyLeV01 (a b : ReRankV01) : Prop :=
  b.skill_match_count < a.skill_match_count
    ∨ (a.skill_match_count = b.skill_match_count ∧ a.raw_distance ≤ b.raw_distance)

/-- The ascending order on the v02 sort key `(-skill_match_count, -score)`:
more matched skills first, then higher relevance first. -/
abbrev keyLeV02 (a b : ReRankV02) : Prop :=
  b.skill_match_count < a.skill_match_count
    ∨ (a.skill_match_count = b.skill_match_count ∧ b.score ≤ a.score)

instance decKeyLeV01 : DecidableRel keyLeV01 := fun _ _ => inferInstance

instance decKeyLeV02 : DecidableRel keyLeV02 := fun _ _ => inferInstance

instance totalKeyLeV01 : IsTotal ReRankV01 keyLeV01 := ⟨fun a b => by
  rcases Nat.lt_trichotomy a.skill_match_count b.skill_match_count with h | h | h
  · exact Or.inr (Or.inl h)
  · rcases le_total a.raw_distance b.raw_distance with hd | hd
    · exact Or.inl (Or.inr ⟨h, hd⟩)
    · exact Or.inr (Or.inr ⟨h.symm, hd⟩)
  · exact Or.inl (Or.inl h)⟩

instance totalKeyLeV02 : IsTotal ReRankV02 keyLeV02 := ⟨fun a b => by
  rcases Nat.lt_trichotomy a.skill_match_count b.skill_match_count with h | h | h
  · exact Or.inr (Or.inl h)
  · rcases le_total a.score b.score with hd | hd
    · exact Or.inr (Or.inr ⟨h.symm, hd⟩)
    · exact Or.inl (Or.inr ⟨h, hd⟩)
  · exact Or.inl (Or.inl h)⟩

instance transKeyLeV01 : IsTrans ReRankV01 keyLeV01 := ⟨fun a b c hab hbc => by
  rcases hab with h1 | ⟨h1, d1⟩ <;> rcases hbc with h2 | ⟨h2, d2⟩
  · exact Or.inl (by omega)
  · exact Or.inl (by omega)
  · exact Or.inl (by omega)
  · exact Or.inr ⟨h1.trans h2, d1.trans d2⟩⟩

instance transKeyLeV02 : IsTrans ReRankV02 keyLeV02 := ⟨fun a b c hab hbc => by
  rcases hab with h1 | ⟨h1, d1⟩ <;> rcases hbc with h2 | ⟨h2, d2⟩
  · exact Or.inl (by omega)
  · exact Or.inl (by omega)
  · exact Or.inl (by omega)
  · exact Or.inr ⟨h1.trans h2, d2.trans d1⟩⟩

/-- `re_ranking_list.sort(key=lambda x: (-x['skill_match_count'], x['raw_distance']))`
(v01 line 306).  Python's `list.sort` is a stable ascending sort, and a stable
sort w.r.t. a total preorder is unique, so insertion sort is an exact model. -/
def sortRerankV01 (l : List ReRankV01) : List ReRankV01 := List.insertionSort keyLeV01 l

/-- `re_ranking_list.sort(key=lambda x: (-x['skill_match_count'], -x['score']))`
(v02 line 209), modelled by the same stable insertion sort. -/
def sortRerankV02 (l : List ReRankV02) : List ReRankV02 := List.insertionSort keyLeV02 l

lemma filter_orderedInsert_of_pos {α : Type} (r : α → α → Prop) [DecidableRel r]
    (p : α → Bool) (a : α) (hpa : p a = true) (hp : ∀ b, p b = true → r a b) :
    ∀ l : List α, (List.orderedInsert r a l).filter p = a :: l.filter p := by
  intro l
  induction l with
  | nil => simp [hpa]
  | cons b l ih =>
    by_cases hr : r a b
    · simp [List.orderedInsert, hr, List.filter_cons, hpa]
    · have hpb : p b = false := by
        rcases Bool.eq_false_or_eq_true (p b) with h | h
        · exact absurd (hp b h) hr
        · exact h
      simp [List.orderedInsert, hr, List.filter_cons, hpb, ih]

lemma filter_orderedInsert_of_neg {α : Type} (r : α → α → Prop) [DecidableRel r]
    (p : α → Bool) (a : α) (hpa : p a = false) :
    ∀ l : List α, (List.orderedInsert r a l).filter p = l.filter p := by
  intro l
  induction l with
  | nil => simp [hpa]
  | cons b l ih =>
    by_cases hr : r a b
    · simp [List.orderedInsert, hr, List.filter_cons, hpa]
    · simp [List.orderedInsert, hr, List.filter_cons, ih]

/-- Stability of the insertion-sort model: elements sharing one sort key keep
their original relative order. -/
lemma filter_insertionSort {α : Type} (r : α → α → Prop) [DecidableRel r]
    (p : α → Bool) (hp : ∀ a b, p a = true → p b = true → r a b) :
    ∀ l : List α, (List.insertionSort r l).filter p = l.filter p := by
  intro l
  induction l with
  | nil => rfl
  | cons a l ih =>
    rcases Bool.eq_false_or_eq_true (p a) with hpa | hpa
    · rw [List.insertionSort,
        filter_orderedInsert_of_pos r p a hpa (fun b hb => hp a b hpa hb), ih]
      simp [List.filter_cons, hpa]
    · rw [List.insertionSort, filter_orderedInsert_of_neg r p a hpa, ih]
      simp [List.filter_cons, hpa]

/-- C2.  The final ranking sort of both pipelines is a permutation of its
input, sorted by the composite key (skill count descending, then the better
semantic score first: ascending distance in v01, descending relevance in v02),
and stable: candidates that agree on both key components appear in the output
in their original relative order (the order coming from the aggregation
step). -/
theorem C2_ranking_sort_order :
    (∀ l : List ReRankV01,
        (sortRerankV01 l).Perm l
        ∧ List.Sorted keyLeV01 (sortRerankV01 l)
        ∧ (∀ (n : Nat) (d : Rat),
            (sortRerankV01 l).filter
                (fun x => decide (x.skill_match_count = n ∧ x.raw_distance = d))
              = l.filter
                (fun x => decide (x.skill_match_count = n ∧ x.raw_distance = d))))
    ∧ (∀ l : List ReRankV02,
        (sortRerankV02 l).Perm l
        ∧ List.Sorted keyLeV02 (sortRerankV02 l)
        ∧ (∀ (n : Nat) (d : Rat),
            (sortRerankV02 l).filter
                (fun x => decide (x.skill_match_count = n ∧ x.score = d))
              = l.filter
                (fun x => decide (x.skill_match_count = n ∧ x.score = d)))) := by
  constructor
  · intro l
    refine ⟨List.perm_insertionSort _ _, List.sorted_insertionSort _ _, ?_⟩
    intro n d
    apply filter_insertionSort
    intro a b ha hb
    simp only [decide_eq_true_eq] at ha hb
    exact Or.inr ⟨ha.1.trans hb.1.symm, by rw [ha.2, hb.2]⟩
  · intro l
    refine ⟨List.perm_insertionSort _ _, List.sorted_insertionSort _ _, ?_⟩
    intro n d
    apply filter_insertionSort
    intro a b ha hb
    simp only [decide_eq_true_eq] at ha hb
    exact Or.inr ⟨ha.1.trans hb.1.symm, by rw [ha.2, hb.2]⟩

/-- A `(Document, score)` pair returned by the similarity query: the document
carries `filename` and `section` metadata and its page content; the score is
the raw distance (v01) or the relevance score (v02). -/
structure ScoredChunk where
  filename : Str
  sec : Str
  page_content : Str
  score : Rat
deriving DecidableEq

/-- The excerpt string both pipelines build for a candidate:
`f"[{section.upper()}] {page_content[:500]}..."`. -/
def chunkLabel (d : ScoredChunk) : Str :=
  "[".toList ++ d.sec.map Char.toUpper ++ "] ".toList ++ d.page_content.take 500 ++ "...".toList

/-- A value of v01's `semantic_candidates` dict. -/
structure CandV01 where
  raw_distance : Rat
  chunk : Str
deriving DecidableEq

/-- A value of v02's `semantic_candidates_map` dict. -/
structure CandV02 where
  filename : Str
  score : Rat
  key_matching_chunk : Str
deriving DecidableEq

/-- Python dict read: first (only) binding of the key, if any. -/
def dget {β : Type} : List (Str × β) → Str → Option β
  | [], _ => none
  | (k0, v0) :: rest, k => if k0 = k then some v0 else dget rest k

/-- Python dict assignment `m[k] = v`: replace in place if the key is bound,
else append (dicts preserve insertion order). -/
def dinsert {β : Type} : List (Str × β) → Str → β → List (Str × β)
  | [], k, v => [(k, v)]
  | (k0, v0) :: rest, k, v =>
    if k0 = k then (k, v) :: rest else (k0, v0) :: dinsert rest k v

/-- The aggregation loop of `ResumeRanker.rank_resumes` (v01 lines 277-286):
keep, per filename, the entry with the lowest raw distance seen so far
(strict comparison, so the first chunk wins ties). -/
def aggV01go : List (Str × CandV01) → List ScoredChunk → List (Str × CandV01)
  | acc, [] => acc
  | acc, r :: rs =>
    match dget acc r.filename with
    | none => aggV01go (dinsert acc r.filename ⟨r.score, chunkLabel r⟩) rs
    | some e =>
      if r.score < e.raw_distance then
        aggV01go (dinsert acc r.filename ⟨r.score, chunkLabel r⟩) rs
      else aggV01go acc rs

/-- v01 `semantic_candidates` built from the raw query results. -/
def aggregateV01 (results : List ScoredChunk) : List (Str × CandV01) :=
  aggV01go [] results

/-- The aggregation loop of `ResumeWorkflow.semantic_search` (v02 lines
172-180): keep, per filename, the entry with the highest relevance score. -/
def aggV02go : List (Str × CandV02) → List ScoredChunk → List (Str × CandV02)
  | acc, [] => acc
  | acc, r :: rs =>
    match dget acc r.filename with
    | none => aggV02go (dinsert acc r.filename ⟨r.filename, r.score, chunkLabel r⟩) rs
    | some e =>
      if e.score < r.score then
        aggV02go (dinsert acc r.filename ⟨r.filename, r.score, chunkLabel r⟩) rs
      else aggV02go acc rs

/-- v02 `semantic_candidates_map`. -/
def aggregateV02 (results : List ScoredChunk) : List (Str × CandV02) :=
  aggV02go [] results

/-- v02 `list(semantic_candidates_map.values())`. -/
def semanticCandidatesV02 (results : List ScoredChunk) : List CandV02 :=
  (aggregateV02 results).map Prod.snd

/-- The scores contributed by a given filename among the raw query results. -/
def fScores (f : Str) (rs : List ScoredChunk) : List Rat :=
  (rs.filter (fun r => decide (r.filename = f))).map ScoredChunk.score

lemma fScores_cons (f : Str) (r : ScoredChunk) (rs : List ScoredChunk) :
    fScores f (r :: rs)
      = if r.filename = f then r.score :: fScores f rs else fScores f rs := by
  unfold fScores
  rw [List.filter_cons]
  by_cases h : r.filename = f <;> simp [h]

lemma dget_dinsert_self {β : Type} (m : List (Str × β)) (k : Str) (v : β) :
    dget (dinsert m k v) k = some v := by
  induction m with
  | nil => simp [dinsert, dget]
  | cons p rest ih =>
    obtain ⟨k0, v0⟩ := p
    by_cases h : k0 = k
    · simp [dinsert, h, dget]
    · simp [dinsert, h, dget, ih]

lemma dget_dinsert_ne {β : Type} (m : List (Str × β)) (k k' : Str) (v : β)
    (h : k' ≠ k) : dget (dinsert m k v) k' = dget m k' := by
  have hkk : ¬ k = k' := fun hc => h hc.symm
  induction m with
  | nil => simp [dinsert, dget, hkk]
  | cons p rest ih =>
    obtain ⟨k0, v0⟩ := p
    by_cases h0 : k0 = k
    · subst h0
      simp [dinsert, dget, hkk]
    · simp [dinsert, dget, h0, ih]

lemma dinsert_cons_self {β : Type} (k : Str) (v v0 : β) (rest : List (Str × β)) :
    dinsert ((k, v0) :: rest) k v = (k, v) :: rest := by
  simp [dinsert]

lemma dinsert_cons_ne {β : Type} (k0 k : Str) (h : k0 ≠ k) (v v0 : β)
    (rest : List (Str × β)) :
    dinsert ((k0, v0) :: rest) k v = (k0, v0) :: dinsert rest k v := by
  simp [dinsert, h]

lemma mem_keys_dinsert {β : Type} (m : List (Str × β)) (k a : Str) (v : β) :
    a ∈ (dinsert m k v).map Prod.fst ↔ a ∈ m.map Prod.fst ∨ a = k := by
  induction m with
  | nil =>
    simp only [dinsert, List.map_cons, List.map_nil, List.mem_cons, List.not_mem_nil]
    tauto
  | cons p rest ih =>
    obtain ⟨k0, v0⟩ := p
    by_cases h : k0 = k
    · subst h
      rw [dinsert_cons_self]
      simp only [List.map_cons, List.mem_cons]
      tauto
    · rw [dinsert_cons_ne k0 k h]
      simp only [List.map_cons, List.mem_cons, ih]
      tauto

lemma nodup_keys_dinsert {β : Type} (m : List (Str × β)) (k : Str) (v : β)
    (h : (m.map Prod.fst).Nodup) : ((dinsert m k v).map Prod.fst).Nodup := by
  induction m with
  | nil => exact List.nodup_singleton k
  | cons p rest ih =>
    obtain ⟨k0, v0⟩ := p
    simp only [List.map_cons, List.nodup_cons] at h
    by_cases h0 : k0 = k
    · subst h0
      rw [dinsert_cons_self]
      simp only [List.map_cons, List.nodup_cons]
      exact h
    · rw [dinsert_cons_ne k0 k h0]
      simp only [List.map_cons, List.nodup_cons]
      refine ⟨?_, ih h.2⟩
      rw [mem_keys_dinsert]
      rintro (hc | hc)
      · exact h.1 hc
      · exact h0 hc

/-- Main invariant of the v01 aggregation loop. -/
lemma aggV01go_spec : ∀ (rs : List ScoredChunk) (acc : List (Str × CandV01)),
    (acc.map Prod.fst).Nodup →
    ((aggV01go acc rs).map Prod.fst).Nodup
    ∧ (∀ f e0, dget acc f = some e0 →
        ∃ e, dget (aggV01go acc rs) f = some e ∧ e.raw_distance ≤ e0.raw_distance)
    ∧ (∀ f, f ∈ rs.map ScoredChunk.filename → (dget (aggV01go acc rs) f).isSome = true)
    ∧ (∀ f e, dget (aggV01go acc rs) f = some e →
        (e.raw_distance ∈ fScores f rs ∨ dget acc f = some e)
        ∧ (∀ s ∈ fScores f rs, e.raw_distance ≤ s)) := by
  intro rs
  induction rs with
  | nil =>
    intro acc hnd
    refine ⟨hnd, ?_, ?_, ?_⟩
    · intro f e0 h
      exact ⟨e0, h, le_refl _⟩
    · intro f h
      simp at h
    · intro f e h
      refine ⟨Or.inr h, ?_⟩
      intro s hs
      simp [fScores] at hs
  | cons r rs ih =>
    intro acc hnd
    -- acc2 : the accumulator after processing r; hacc2 : the update facts
    obtain ⟨acc2, hrun, hnd2, hsame, hrf⟩ :
        ∃ acc2, aggV01go acc (r :: rs) = aggV01go acc2 rs
          ∧ (acc2.map Prod.fst).Nodup
          ∧ (∀ f, f ≠ r.filename → dget acc2 f = dget acc f)
          ∧ (∃ e2, dget acc2 r.filename = some e2
              ∧ e2.raw_distance ≤ r.score
              ∧ (∀ e0, dget acc r.filename = some e0 → e2.raw_distance ≤ e0.raw_distance)
              ∧ (e2.raw_distance = r.score ∨ dget acc r.filename = some e2)) := by
      cases hget : dget acc r.filename with
      | none =>
        refine ⟨dinsert acc r.filename ⟨r.score, chunkLabel r⟩,
          by simp only [aggV01go, hget],
          nodup_keys_dinsert _ _ _ hnd, ?_, ?_⟩
        · intro f hf
          exact dget_dinsert_ne _ _ _ _ hf
        · refine ⟨⟨r.score, chunkLabel r⟩, dget_dinsert_self _ _ _, le_refl _, ?_, Or.inl rfl⟩
          intro e0 h0
          exact absurd h0 (by simp)
      | some e =>
        by_cases hlt : r.score < e.raw_distance
        · refine ⟨dinsert acc r.filename ⟨r.score, chunkLabel r⟩,
            by simp only [aggV01go, hget, if_pos hlt],
            nodup_keys_dinsert _ _ _ hnd, ?_, ?_⟩
          · intro f hf
            exact dget_dinsert_ne _ _ _ _ hf
          · refine ⟨⟨r.score, chunkLabel r⟩, dget_dinsert_self _ _ _, le_refl _, ?_, Or.inl rfl⟩
            intro e0 h0
            injection h0 with h0
            subst h0
            exact le_of_lt hlt
        · refine ⟨acc, by simp only [aggV01go, hget, if_neg hlt], hnd, fun f _ => rfl, ?_⟩
          refine ⟨e, hget, le_of_not_lt hlt, ?_, Or.inr rfl⟩
          intro e0 h0
          injection h0 with h0
          subst h0
          exact le_refl _
    obtain ⟨e2, hget2, he2score, he2acc, he2src⟩ := hrf
    obtain ⟨ihnd, ihcarry, ihsome, ihbest⟩ := ih acc2 hnd2
    rw [hrun]
    refine ⟨ihnd, ?_, ?_, ?_⟩
    · -- entries of acc survive with a score no larger
      intro f e0 h0
      by_cases hf : f = r.filename
      · subst hf
        obtain ⟨e3, hget3, h3⟩ := ihcarry _ e2 hget2
        exact ⟨e3, hget3, le_trans h3 (he2acc e0 h0)⟩
      · rw [← hsame f hf] at h0
        exact ihcarry f e0 h0
    · -- every mentioned filename ends up bound
      intro f hf
      simp only [List.map_cons, List.mem_cons] at hf
      rcases hf with hf | hf
      · subst hf
        obtain ⟨e3, hget3, -⟩ := ihcarry _ e2 hget2
        simp [hget3]
      · exact ihsome f hf
    · -- every final entry carries the minimum of its filename's scores
      intro f e hfin
      obtain ⟨hsrc, hmin⟩ := ihbest f e hfin
      constructor
      · rcases hsrc with hmem | hacc2
        · left
          rw [fScores_cons]
          split
          · exact List.mem_cons_of_mem _ hmem
          · exact hmem
        · by_cases hf : f = r.filename
          · subst hf
            rw [hget2] at hacc2
            injection hacc2 with hacc2
            subst hacc2
            rcases he2src with hs | hs
            · left
              rw [fScores_cons, if_pos rfl]
              rw [hs]
              exact List.mem_cons_self _ _
            · exact Or.inr hs
          · rw [hsame f hf] at hacc2
            exact Or.inr hacc2
      · intro s hs
        rw [fScores_cons] at hs
        by_cases hf : r.filename = f
        · rw [if_pos hf] at hs
          rcases List.mem_cons.mp hs with hs | hs
          · subst hs
            -- e is the final entry at f = r.filename; chain through acc2
            obtain ⟨e3, hget3, h3⟩ := ihcarry f e2 (hf ▸ hget2)
            rw [hfin] at hget3
            injection hget3 with hget3
            subst hget3
            exact le_trans h3 he2score
          · exact hmin s hs
        · rw [if_neg hf] at hs
          exact hmin s hs

lemma fname_dinsert (acc : List (Str × CandV02)) (k : Str) (v : CandV02)
    (hacc : ∀ f e0, dget acc f = some e0 → e0.filename = f) (hv : v.filename = k) :
    ∀ f e0, dget (dinsert acc k v) f = some e0 → e0.filename = f := by
  intro f e0 h
  by_cases hf : f = k
  · subst hf
    rw [dget_dinsert_self] at h
    injection h with h
    subst h
    exact hv
  · rw [dget_dinsert_ne _ _ _ _ hf] at h
    exact hacc f e0 h

/-- Main invariant of the v02 aggregation loop (highest relevance wins). -/
lemma aggV02go_spec : ∀ (rs : List ScoredChunk) (acc : List (Str × CandV02)),
    (acc.map Prod.fst).Nodup →
    (∀ f e0, dget acc f = some e0 → e0.filename = f) →
    ((aggV02go acc rs).map Prod.fst).Nodup
    ∧ (∀ f e0, dget acc f = some e0 →
        ∃ e, dget (aggV02go acc rs) f = some e ∧ e0.score ≤ e.score)
    ∧ (∀ f, f ∈ rs.map ScoredChunk.filename → (dget (aggV02go acc rs) f).isSome = true)
    ∧ (∀ f e, dget (aggV02go acc rs) f = some e →
        e.filename = f
        ∧ (e.score ∈ fScores f rs ∨ dget acc f = some e)
        ∧ (∀ s ∈ fScores f rs, s ≤ e.score)) := by
  intro rs
  induction rs with
  | nil =>
    intro acc hnd hfn
    refine ⟨hnd, ?_, ?_, ?_⟩
    · intro f e0 h
      exact ⟨e0, h, le_refl _⟩
    · intro f h
      simp at h
    · intro f e h
      refine ⟨hfn f e h, Or.inr h, ?_⟩
      intro s hs
      simp [fScores] at hs
  | cons r rs ih =>
    intro acc hnd hfn
    obtain ⟨acc2, hrun, hnd2, hfn2, hsame, hrf⟩ :
        ∃ acc2, aggV02go acc (r :: rs) = aggV02go acc2 rs
          ∧ (acc2.map Prod.fst).Nodup
          ∧ (∀ f e0, dget acc2 f = some e0 → e0.filename = f)
          ∧ (∀ f, f ≠ r.filename → dget acc2 f = dget acc f)
          ∧ (∃ e2, dget acc2 r.filename = some e2
              ∧ r.score ≤ e2.score
              ∧ (∀ e0, dget acc r.filename = some e0 → e0.score ≤ e2.score)
              ∧ (e2.score = r.score ∨ dget acc r.filename = some e2)) := by
      cases hget : dget acc r.filename with
      | none =>
        refine ⟨dinsert acc r.filename ⟨r.filename, r.score, chunkLabel r⟩,
          by simp only [aggV02go, hget],
          nodup_keys_dinsert _ _ _ hnd,
          fname_dinsert _ _ _ hfn rfl, ?_, ?_⟩
        · intro f hf
          exact dget_dinsert_ne _ _ _ _ hf
        · refine ⟨⟨r.filename, r.score, chunkLabel r⟩, dget_dinsert_self _ _ _,
            le_refl _, ?_, Or.inl rfl⟩
          intro e0 h0
          exact absurd h0 (by simp)
      | some e =>
        by_cases hlt : e.score < r.score
        · refine ⟨dinsert acc r.filename ⟨r.filename, r.score, chunkLabel r⟩,
            by simp only [aggV02go, hget, if_pos hlt],
            nodup_keys_dinsert _ _ _ hnd,
            fname_dinsert _ _ _ hfn rfl, ?_, ?_⟩
          · intro f hf
            exact dget_dinsert_ne _ _ _ _ hf
          · refine ⟨⟨r.filename, r.score, chunkLabel r⟩, dget_dinsert_self _ _ _,
              le_refl _, ?_, Or.inl rfl⟩
            intro e0 h0
            injection h0 with h0
            subst h0
            exact le_of_lt hlt
        · refine ⟨acc, by simp only [aggV02go, hget, if_neg hlt], hnd, hfn,
            fun f _ => rfl, ?_⟩
          refine ⟨e, hget, le_of_not_lt hlt, ?_, Or.inr rfl⟩
          intro e0 h0
          injection h0 with h0
          subst h0
          exact le_refl _
    obtain ⟨e2, hget2, he2score, he2acc, he2src⟩ := hrf
    obtain ⟨ihnd, ihcarry, ihsome, ihbest⟩ := ih acc2 hnd2 hfn2
    rw [hrun]
    refine ⟨ihnd, ?_, ?_, ?_⟩
    · intro f e0 h0
      by_cases hf : f = r.filename
      · subst hf
        obtain ⟨e3, hget3, h3⟩ := ihcarry _ e2 hget2
        exact ⟨e3, hget3, le_trans (he2acc e0 h0) h3⟩
      · rw [← hsame f hf] at h0
        exact ihcarry f e0 h0
    · intro f hf
      simp only [List.map_cons, List.mem_cons] at hf
      rcases hf with hf | hf
      · subst hf
        obtain ⟨e3, hget3, -⟩ := ihcarry _ e2 hget2
        simp [hget3]
      · exact ihsome f hf
    · intro f e hfin
      obtain ⟨hname, hsrc, hmax⟩ := ihbest f e hfin
      refine ⟨hname, ?_, ?_⟩
      · rcases hsrc with hmem | hacc2
        · left
          rw [fScores_cons]
          split
          · exact List.mem_cons_of_mem _ hmem
          · exact hmem
        · by_cases hf : f = r.filename
          · subst hf
            rw [hget2] at hacc2
            injection hacc2 with hacc2
            subst hacc2
            rcases he2src with hs | hs
            · left
              rw [fScores_cons, if_pos rfl]
              rw [hs]
              exact List.mem_cons_self _ _
            · exact Or.inr hs
          · rw [hsame f hf] at hacc2
            exact Or.inr hacc2
      · intro s hs
        rw [fScores_cons] at hs
        by_cases hf : r.filename = f
        · rw [if_pos hf] at hs
          rcases List.mem_cons.mp hs with hs | hs
          · subst hs
            obtain ⟨e3, hget3, h3⟩ := ihcarry f e2 (hf ▸ hget2)
            rw [hfin] at hget3
            injection hget3 with hget3
            subst hget3
            exact le_trans he2score h3
          · exact hmax s hs
        · rw [if_neg hf] at hs
          exact hmax s hs

lemma dget_of_mem_nodup {β : Type} : ∀ (m : List (Str × β)),
    (m.map Prod.fst).Nodup → ∀ (f : Str) (e : β), (f, e) ∈ m → dget m f = some e := by
  intro m
  induction m with
  | nil =>
    intro _ f e h
    simp at h
  | cons p rest ih =>
    intro hnd f e h
    obtain ⟨k0, v0⟩ := p
    simp only [List.map_cons, List.nodup_cons] at hnd
    rcases List.mem_cons.mp h with h | h
    · injection h with h1 h2
      subst h1
      subst h2
      simp [dget]
    · have hk : k0 ≠ f := by
        intro hc
        subst hc
        exact hnd.1 (List.mem_map.mpr ⟨(k0, e), h, rfl⟩)
      simp only [dget, if_neg hk]
      exact ih hnd.2 f e h

lemma mem_of_dget {β : Type} : ∀ (m : List (Str × β)) (f : Str) (e : β),
    dget m f = some e → (f, e) ∈ m := by
  intro m
  induction m with
  | nil =>
    intro f e h
    simp [dget] at h
  | cons p rest ih =>
    intro f e h
    obtain ⟨k0, v0⟩ := p
    by_cases hk : k0 = f
    · subst hk
      rw [dget, if_pos rfl] at h
      injection h with h
      subst h
      exact List.mem_cons_self _ _
    · rw [dget, if_neg hk] at h
      exact List.mem_cons_of_mem _ (ih f e h)

/-- C3's property for the v01 aggregation: one entry per filename, and each
entry carries the numerically lowest raw distance its filename contributed. -/
def bestPerFilenameV01 (results : List ScoredChunk) : Prop :=
  ((aggregateV01 results).map Prod.fst).Nodup
  ∧ (∀ f, f ∈ results.map ScoredChunk.filename →
      (dget (aggregateV01 results) f).isSome = true)
  ∧ (∀ f e, dget (aggregateV01 results) f = some e →
      e.raw_distance ∈ fScores f results
        ∧ ∀ s ∈ fScores f results, e.raw_distance ≤ s)

/-- C3's property for the v02 aggregation: one candidate per filename, and
each candidate carries the numerically highest relevance score its filename
contributed. -/
def bestPerFilenameV02 (results : List ScoredChunk) : Prop :=
  ((semanticCandidatesV02 results).map CandV02.filename).Nodup
  ∧ (∀ f, f ∈ results.map ScoredChunk.filename →
      ∃ c ∈ semanticCandidatesV02 results, c.filename = f)
  ∧ (∀ c ∈ semanticCandidatesV02 results,
      c.score ∈ fScores c.filename results
        ∧ ∀ s ∈ fScores c.filename results, s ≤ c.score)

/-- C3.  Aggregating the raw (chunk, score) query results yields at most one
candidate per filename, and a resume contributing several chunks keeps the
single best score per the declared metric direction: the numerically lowest
raw distance in v01, the numerically highest relevance score in v02 — an
element of its filename's scores that bounds all of them, so never an
average. -/
theorem C3_best_chunk_aggregation (results : List ScoredChunk) :
    bestPerFilenameV01 results ∧ bestPerFilenameV02 results := by
  constructor
  · obtain ⟨hnd, -, hsome, hbest⟩ :=
      aggV01go_spec results [] (by simp)
    refine ⟨hnd, hsome, ?_⟩
    intro f e h
    obtain ⟨hsrc, hmin⟩ := hbest f e h
    refine ⟨?_, hmin⟩
    rcases hsrc with hmem | hacc
    · exact hmem
    · simp [dget] at hacc
  · obtain ⟨hnd, -, hsome, hbest⟩ :=
      aggV02go_spec results [] (by simp) (by intro f e0 h; simp [dget] at h)
    have hentry : ∀ p ∈ aggregateV02 results, (Prod.snd p).filename = Prod.fst p := by
      intro p hp
      obtain ⟨f, e⟩ := p
      have hg := dget_of_mem_nodup _ hnd f e hp
      exact (hbest f e hg).1
    have hkeys : (semanticCandidatesV02 results).map CandV02.filename
        = (aggregateV02 results).map Prod.fst := by
      unfold semanticCandidatesV02
      rw [List.map_map]
      exact List.map_congr_left hentry
    refine ⟨?_, ?_, ?_⟩
    · rw [hkeys]
      exact hnd
    · intro f hf
      have h1 := hsome f hf
      cases hg : dget (aggV02go [] results) f with
      | none => rw [hg] at h1; simp at h1
      | some e =>
        refine ⟨e, ?_, (hbest f e hg).1⟩
        unfold semanticCandidatesV02
        exact List.mem_map.mpr ⟨(f, e), mem_of_dget _ f e hg, rfl⟩
    · intro c hc
      obtain ⟨⟨f, e⟩, hp, he⟩ := List.mem_map.mp hc
      cases he
      have hg := dget_of_mem_nodup _ hnd f e hp
      obtain ⟨hname, hsrc, hmax⟩ := hbest f e hg
      rw [hname]
      refine ⟨?_, hmax⟩
      rcases hsrc with hmem | hacc
      · exact hmem
      · simp [dget] at hacc

/-- First alternative of the alternation group (in listed order) that matches
at the head of `s`, case-insensitively; returns its length.  Alternatives are
lower-case literals. -/
def altHeadLen : List Str → Str → Option Nat
  | [], _ => none
  | a :: rest, s =>
    if lowerStr (s.take a.length) = a then some a.length else altHeadLen rest s

/-- Length of the leading whitespace run, i.e. what greedy `\s*` consumes. -/
def wsLen (s : Str) : Nat := (s.takeWhile Char.isWhitespace).length

/-- `re.match` of a heading pattern `(alt1|alt2|...)\s*:?` against the head of
`s` (the header-stripping step): length of the full match, or `none`. -/
def patMatchLen (alts : List Str) (s : Str) : Option Nat :=
  (altHeadLen alts s).map (fun L =>
    let L2 := L + wsLen (s.drop L)
    match s.drop L2 with
    | ':' :: _ => L2 + 1
    | _ => L2)

/-- `re.search` of the alternation: index of the leftmost position at which
some alternative matches (the heading patterns have no anchors or word
boundaries, so this is bare substring search). -/
def reSearchPos (alts : List Str) : Str → Option Nat
  | [] => if (altHeadLen alts []).isSome then some 0 else none
  | c :: rest =>
    if (altHeadLen alts (c :: rest)).isSome then some 0
    else (reSearchPos alts rest).map (· + 1)

def summaryAlts : List Str :=
  ["summary".toList, "objective".toList, "profile".toList, "about".toList]

def experienceAlts : List Str :=
  ["experience".toList, "employment history".toList, "work history".toList,
   "professional experience".toList]

def skillsAlts : List Str :=
  ["skills".toList, "technical skills".toList, "core competencies".toList,
   "technologies".toList]

def projectsAlts : List Str :=
  ["projects".toList, "personal projects".toList, "portfolio".toList,
   "key projects".toList]

/-- The `patterns` dict of v01 `TextProcessor.extract_sections` (lines 120-125),
in insertion order. -/
def patternsV01 : List (Str × List Str) :=
  [("summary".toList, summaryAlts), ("experience".toList, experienceAlts),
   ("skills".toList, skillsAlts), ("projects".toList, projectsAlts)]

/-- The `patterns` dict of v02 `TextProcessor.extract_sections` (lines 88-91). -/
def patternsV02 : List (Str × List Str) :=
  [("experience".toList, experienceAlts), ("skills".toList, skillsAlts)]

/-- `section_starts`: for each label (in dict order) the start offset of the
first pattern occurrence in the lowered text, labels without a match absent. -/
def sectionStarts (patterns : List (Str × List Str)) (tl : Str) :
    List (Str × List Str × Nat) :=
  patterns.filterMap (fun p => (reSearchPos p.2 tl).map (fun i => (p.1, p.2, i)))

/-- `sorted(section_starts.items(), key=lambda item: item[1])`: Python's
`sorted` is stable, modelled by insertion sort on the start offset. -/
def sortByStart (l : List (Str × List Str × Nat)) : List (Str × List Str × Nat) :=
  List.insertionSort (fun a b => a.2.2 ≤ b.2.2) l

/-- The slicing loop of `extract_sections`: each found label's section runs
from its own start offset to the next found label's start offset (or the end
of the text), is stripped, has the heading token removed from its front via
`re.match`, and is kept only if non-empty. -/
def buildSections (text : Str) : List (Str × List Str × Nat) → List (Str × Str)
  | [] => []
  | (sec, alts, st) :: rest =>
    let en := match rest with
      | (_, _, st2) :: _ => st2
      | [] => text.length
    let content := stripStr ((text.drop st).take (en - st))
    let content2 := match patMatchLen alts content with
      | some L => stripStr (content.drop L)
      | none => content
    (if content2 = [] then [] else [(sec, content2)]) ++ buildSections text rest

/-- `TextProcessor.extract_sections` (v01 lines 112-153, v02 lines 86-104),
parameterised by the pattern table. -/
def extract_sections (patterns : List (Str × List Str)) (text : Str) : List (Str × Str) :=
  buildSections text (sortByStart (sectionStarts patterns (lowerStr text)))

def extract_sections_v01 (text : Str) : List (Str × Str) :=
  extract_sections patternsV01 text

def extract_sections_v02 (text : Str) : List (Str × Str) :=
  extract_sections patternsV02 text

/-- Some alternative of the label occurs (case-insensitively) as a plain
substring at offset `i` — no token/word-boundary condition. -/
def substrAt (alts : List Str) (s : Str) (i : Nat) : Prop :=
  ∃ a ∈ alts, lowerStr ((s.drop i).take a.length) = a

lemma altHeadLen_isSome_iff (alts : List Str) (s : Str) :
    (altHeadLen alts s).isSome = true ↔ ∃ a ∈ alts, lowerStr (s.take a.length) = a := by
  induction alts with
  | nil => simp [altHeadLen]
  | cons a rest ih =>
    by_cases h : lowerStr (s.take a.length) = a
    · rw [altHeadLen, if_pos h]
      constructor
      · intro _
        exact ⟨a, List.mem_cons_self a rest, h⟩
      · intro _
        rfl
    · rw [altHeadLen, if_neg h, ih]
      constructor
      · rintro ⟨b, hb, hpb⟩
        exact ⟨b, List.mem_cons_of_mem a hb, hpb⟩
      · rintro ⟨b, hb, hpb⟩
        rcases List.mem_cons.mp hb with hb | hb
        · subst hb
          exact absurd hpb h
        · exact ⟨b, hb, hpb⟩

/-- The heading search finds exactly the leftmost plain substring occurrence
of any alternative, with no boundary condition. -/
lemma reSearchPos_iff (alts : List Str) : ∀ (s : Str) (i : Nat),
    reSearchPos alts s = some i ↔
      (substrAt alts s i ∧ ∀ j, j < i → ¬ substrAt alts s j) := by
  intro s
  induction s with
  | nil =>
    intro i
    rw [reSearchPos]
    by_cases h : (altHeadLen alts []).isSome = true
    · rw [if_pos h]
      constructor
      · intro hi
        injection hi with hi
        subst hi
        refine ⟨(altHeadLen_isSome_iff alts []).mp h, ?_⟩
        intro j hj
        omega
      · rintro ⟨ha, hmin⟩
        have hi : i = 0 := by
          by_contra hne
          have h0 : substrAt alts [] 0 := by
            obtain ⟨a, hmem, hp⟩ := ha
            refine ⟨a, hmem, ?_⟩
            simpa [List.drop_nil] using hp
          exact hmin 0 (by omega) h0
        subst hi
        rfl
    · rw [if_neg h]
      constructor
      · intro hc
        exact Option.noConfusion hc
      · rintro ⟨ha, -⟩
        exfalso
        apply h
        rw [altHeadLen_isSome_iff]
        obtain ⟨a, hmem, hp⟩ := ha
        refine ⟨a, hmem, ?_⟩
        simpa [List.drop_nil] using hp
  | cons c rest ih =>
    intro i
    rw [reSearchPos]
    by_cases h : (altHeadLen alts (c :: rest)).isSome = true
    · rw [if_pos h]
      have hA0 : substrAt alts (c :: rest) 0 :=
        (altHeadLen_isSome_iff _ _).mp h
      constructor
      · intro hi
        injection hi with hi
        subst hi
        refine ⟨hA0, ?_⟩
        intro j hj
        omega
      · rintro ⟨ha, hmin⟩
        have hi : i = 0 := by
          by_contra hne
          exact hmin 0 (by omega) hA0
        subst hi
        rfl
    · rw [if_neg h]
      have hA0 : ¬ substrAt alts (c :: rest) 0 := by
        intro hc
        apply h
        rw [altHeadLen_isSome_iff]
        exact hc
      have hshift : ∀ j, substrAt alts (c :: rest) (j + 1) ↔ substrAt alts rest j := by
        intro j
        exact Iff.rfl
      constructor
      · intro hi
        rcases hmap : reSearchPos alts rest with _ | j0
        · rw [hmap] at hi
          exact Option.noConfusion hi
        · rw [hmap] at hi
          simp only [Option.map_some'] at hi
          injection hi with hi
          subst hi
          obtain ⟨ha2, hmin2⟩ := (ih j0).mp hmap
          refine ⟨(hshift j0).mpr ha2, ?_⟩
          intro j hj
          cases j with
          | zero => exact hA0
          | succ j2 =>
            intro hc
            exact hmin2 j2 (by omega) ((hshift j2).mp hc)
      · rintro ⟨ha, hmin⟩
        cases i with
        | zero => exact absurd ha hA0
        | succ i2 =>
          have hres : reSearchPos alts rest = some i2 := by
            rw [ih i2]
            refine ⟨(hshift i2).mp ha, ?_⟩
            intro j hj hc
            exact hmin (j + 1) (by omega) ((hshift j).mpr hc)
          rw [hres]
          rfl

/-- C8.  The claim as frozen is false: the heading patterns carry no word
boundaries, so in the text "inexperienced" — where "experience" occurs only
inside an unrelated word — the extractor still starts an experience section
there. -/
theorem C8_counterexample :
    "experience".toList ∈ (extract_sections_v01 "inexperienced".toList).map Prod.fst := by
  decide

/-- C8 (amended).  Section-heading detection is bare substring search: the
search returns exactly the leftmost position where some synonym occurs as a
plain (case-insensitive) substring, with no token/word-boundary condition, so
a synonym inside an unrelated word IS taken as that label's section start —
e.g. "he was inexperienced" yields an experience section starting inside
"inexperienced".  Only the first occurrence of each label's pattern is used. -/
theorem C8_substring_heading_detection :
    (∀ (alts : List Str) (s : Str) (i : Nat),
        reSearchPos alts s = some i ↔
          (substrAt alts s i ∧ ∀ j, j < i → ¬ substrAt alts s j))
    ∧ extract_sections_v01 "he was inexperienced".toList
        = [("experience".toList, "d".toList)] :=
  ⟨reSearchPos_iff, by decide⟩

/-- Witness for C8: the search characterization instantiated at a concrete
text. -/
theorem C8_substring_heading_detection_witness :
    substrAt experienceAlts "he was inexperienced".toList 9
      ∧ ∀ j, j < 9 → ¬ substrAt experienceAlts "he was inexperienced".toList j :=
  (C8_substring_heading_detection.1 experienceAlts "he was inexperienced".toList 9).mp
    (by decide)

/-- `processed_resumes[filename] = {'full_text': ..., 'sections': ...}`. -/
structure ResumeData where
  full_text : Str
  sections : List (Str × Str)
deriving DecidableEq

/-- A `Document(page_content=..., metadata={'filename': ..., 'section': ...})`
submitted to the ephemeral index. -/
structure SecDoc where
  filename : Str
  sec : Str
  page_content : Str
deriving DecidableEq

/-- The pre-processing loop of v01 `rank_resumes` (lines 240-262): skip files
whose extracted text is empty; extract sections, falling back to a single
bounded `general` section; store the resume under its filename and append one
document per section. -/
def preprocessV01go (processed : List (Str × ResumeData)) (docs : List SecDoc) :
    List (Str × Str) → List (Str × ResumeData) × List SecDoc
  | [] => (processed, docs)
  | (filename, full_text) :: rest =>
    if full_text = [] then preprocessV01go processed docs rest
    else
      let sections0 := extract_sections_v01 full_text
      let sections :=
        if sections0 = [] then [("general".toList, full_text.take 2000)] else sections0
      preprocessV01go (dinsert processed filename ⟨full_text, sections⟩)
        (docs ++ sections.map (fun sv => ⟨filename, sv.1, sv.2⟩)) rest

def preprocessV01 (file_data_list : List (Str × Str)) :
    List (Str × ResumeData) × List SecDoc :=
  preprocessV01go [] [] file_data_list

/-- `ResumeWorkflow.preprocess_resumes` (v02 lines 130-157): like v01, but the
(possibly empty) section map is stored as-is and the `general` fallback only
produces an index document. -/
def preprocess_resumes_v02go (processed : List (Str × ResumeData)) (docs : List SecDoc) :
    List (Str × Str) → List (Str × ResumeData) × List SecDoc
  | [] => (processed, docs)
  | (filename, full_text) :: rest =>
    if full_text = [] then preprocess_resumes_v02go processed docs rest
    else
      let sections := extract_sections_v02 full_text
      let newdocs :=
        if sections = [] then [(⟨filename, "general".toList, full_text.take 2000⟩ : SecDoc)]
        else sections.map (fun sv => ⟨filename, sv.1, sv.2⟩)
      preprocess_resumes_v02go (dinsert processed filename ⟨full_text, sections⟩)
        (docs ++ newdocs) rest

def preprocess_resumes_v02 (file_data_list : List (Str × Str)) :
    List (Str × ResumeData) × List SecDoc :=
  preprocess_resumes_v02go [] [] file_data_list

inductive ErrV01 where
  | badRequest
  | internal
deriving DecidableEq

/-- A `RankedResume` response row (v01).  `processing_time`, `job_title` and
`summary` are wall-clock/presentation fields owned by external collaborators
and are not modelled. -/
structure RankedResumeV01 where
  rank : Nat
  filename : Str
  semantic_score : Rat
  skill_match_count : Nat
  total_skills_required : Nat
  matched_skills : List Str
  missing_skills : List Str
  content_preview : Str
  key_matching_chunk : Str
deriving DecidableEq

structure OutputV01 where
  total_resumes_processed : Nat
  top_candidates : List RankedResumeV01
deriving DecidableEq

/-- `max(0.0, min(1.0, 1.0 / (1.0 + raw_distance)))` (v01 line 312). -/
def normalized_score (d : Rat) : Rat := max 0 (min 1 (1 / (1 + d)))

/-- Layer 2 of v01 (lines 290-303): look up each candidate's full text (a
missing filename would be a Python `KeyError`, caught by the generic handler)
and attach the skill-match data. -/
def reRankListV01 (processed : List (Str × ResumeData)) (required_skills : List Str) :
    List (Str × CandV01) → Except Unit (List ReRankV01)
  | [] => Except.ok []
  | (filename, data) :: rest =>
    match dget processed filename with
    | none => Except.error ()
    | some rd =>
      let mm := improved_skill_match rd.full_text required_skills
      match reRankListV01 processed required_skills rest with
      | Except.error u => Except.error u
      | Except.ok tail =>
        Except.ok (⟨filename, data.raw_distance, mm.1.length, mm.1, mm.2,
          data.chunk⟩ :: tail)

/-- The response-building loop of v01 (lines 309-324): 1-based ranks over the
first `top_n` sorted candidates, normalized scores, bounded previews. -/
def topCandidatesV01go (processed : List (Str × ResumeData)) (total_skills : Nat) :
    Nat → List ReRankV01 → Except Unit (List RankedResumeV01)
  | _, [] => Except.ok []
  | i, c :: rest =>
    match dget processed c.filename with
    | none => Except.error ()
    | some rd =>
      match topCandidatesV01go processed total_skills (i + 1) rest with
      | Except.error u => Except.error u
      | Except.ok tail =>
        Except.ok (⟨i + 1, c.filename, normalized_score c.raw_distance,
          c.skill_match_count, total_skills, c.matched_skills, c.missing_skills,
          rd.full_text.take 400 ++ "...".toList, c.key_matching_chunk⟩ :: tail)

def topCandidatesV01 (processed : List (Str × ResumeData)) (total_skills : Nat)
    (l : List ReRankV01) (top_n : Nat) : Except Unit (List RankedResumeV01) :=
  topCandidatesV01go processed total_skills 0 (l.take top_n)

def SEMANTIC_SEARCH_K : Nat := 20

/-- The run record of one v01 ranking request: the outcome, how many times
the ephemeral index was built and torn down, and the `k` passed to the
similarity query (if one was issued). -/
structure RunV01 where
  result : Except ErrV01 OutputV01
  builds : Nat
  teardowns : Nat
  kUsed : Option Nat

/-- `ResumeRanker.rank_resumes` (v01 lines 229-347).  The whole body runs in a
`try` whose `finally` calls `delete_collection`, so every exit path after the
build — the successful return, the query failure and any unexpected Layer 2
failure — tears the collection down exactly once.  The query outcome is the
oracle input. -/
def rank_resumes_v01 (file_data_list : List (Str × Str))
    (queryOutcome : Except Unit (List ScoredChunk))
    (required_skills : List Str) (top_n : Nat) : RunV01 :=
  let pd := preprocessV01 file_data_list
  let processed := pd.1
  let docs := pd.2
  if processed = [] then
    ⟨Except.error ErrV01.badRequest, 0, 0, none⟩
  else if docs = [] then
    match reRankListV01 processed required_skills [] with
    | Except.error _ => ⟨Except.error ErrV01.internal, 0, 0, none⟩
    | Except.ok rl =>
      match topCandidatesV01 processed required_skills.length (sortRerankV01 rl) top_n with
      | Except.error _ => ⟨Except.error ErrV01.internal, 0, 0, none⟩
      | Except.ok tops => ⟨Except.ok ⟨processed.length, tops⟩, 0, 0, none⟩
  else
    let k := min SEMANTIC_SEARCH_K docs.length
    match queryOutcome with
    | Except.error _ => ⟨Except.error ErrV01.internal, 1, 1, some k⟩
    | Except.ok raw =>
      match reRankListV01 processed required_skills (aggregateV01 raw) with
      | Except.error _ => ⟨Except.error ErrV01.internal, 1, 1, some k⟩
      | Except.ok rl =>
        match topCandidatesV01 processed required_skills.length (sortRerankV01 rl) top_n with
        | Except.error _ => ⟨Except.error ErrV01.internal, 1, 1, some k⟩
        | Except.ok tops => ⟨Except.ok ⟨processed.length, tops⟩, 1, 1, some k⟩

structure SearchV02 where
  result : Except Unit (List CandV02)
  builds : Nat
  teardowns : Nat
  kUsed : Option Nat

/-- `ResumeWorkflow.semantic_search` (v02 lines 159-185).  With no documents
the node returns an empty candidate list without touching the index.
Otherwise the index is built and queried with the constant `k=100`;
`delete_collection` runs only *after* a successful query — a query exception
propagates before the teardown line is reached. -/
def semantic_search_v02 (section_documents : List SecDoc)
    (queryOutcome : Except Unit (List ScoredChunk)) : SearchV02 :=
  if section_documents = [] then ⟨Except.ok [], 0, 0, none⟩
  else
    match queryOutcome with
    | Except.error u => ⟨Except.error u, 1, 0, some 100⟩
    | Except.ok raw => ⟨Except.ok (semanticCandidatesV02 raw), 1, 1, some 100⟩

/-- `ResumeWorkflow.skill_rerank` (v02 lines 187-211), candidate loop. -/
def skill_rerank_v02go (processed : List (Str × ResumeData)) (required_skills : List Str) :
    List CandV02 → Except Unit (List ReRankV02)
  | [] => Except.ok []
  | c :: rest =>
    match dget processed c.filename with
    | none => Except.error ()
    | some rd =>
      let mm := skill_match_v02 rd.full_text required_skills
      match skill_rerank_v02go processed required_skills rest with
      | Except.error u => Except.error u
      | Except.ok tail =>
        Except.ok (⟨c.filename, c.score, c.key_matching_chunk, mm.1.length,
          mm.1, mm.2⟩ :: tail)

/-- A `RankedResume` response row (v02); the optional generative-feedback
fields are purely additive, produced by an external collaborator, and never
affect ranking, so they are not modelled. -/
structure RankedResumeV02 where
  rank : Nat
  filename : Str
  semantic_score : Rat
  skill_match_count : Nat
  total_skills_required : Nat
  matched_skills : List Str
  missing_skills : List Str
  content_preview : Str
  key_matching_chunk : Str
deriving DecidableEq

structure OutputV02 where
  total_resumes_processed : Nat
  top_candidates : List RankedResumeV02
deriving DecidableEq

def topCandidatesV02go (processed : List (Str × ResumeData)) (total_skills : Nat) :
    Nat → List ReRankV02 → Except Unit (List RankedResumeV02)
  | _, [] => Except.ok []
  | i, c :: rest =>
    match dget processed c.filename with
    | none => Except.error ()
    | some rd =>
      match topCandidatesV02go processed total_skills (i + 1) rest with
      | Except.error u => Except.error u
      | Except.ok tail =>
        Except.ok (⟨i + 1, c.filename, c.score, c.skill_match_count, total_skills,
          c.matched_skills, c.missing_skills, rd.full_text.take 400 ++ "...".toList,
          c.key_matching_chunk⟩ :: tail)

def topCandidatesV02 (processed : List (Str × ResumeData)) (total_skills : Nat)
    (l : List ReRankV02) (top_n : Nat) : Except Unit (List RankedResumeV02) :=
  topCandidatesV02go processed total_skills 0 (l.take top_n)

structure RunV02 where
  result : Except Unit OutputV02
  builds : Nat
  teardowns : Nat
  kUsed : Option Nat

/-- The v02 workflow `preprocess_resumes → semantic_search → skill_rerank`
followed by the endpoint's response building (lines 272-335); any exception is
caught by the endpoint's generic handler and surfaces as an internal error. -/
def run_workflow_v02 (file_data_list : List (Str × Str))
    (queryOutcome : Except Unit (List ScoredChunk))
    (required_skills : List Str) (top_n : Nat) : RunV02 :=
  let pd := preprocess_resumes_v02 file_data_list
  let s := semantic_search_v02 pd.2 queryOutcome
  match s.result with
  | Except.error u => ⟨Except.error u, s.builds, s.teardowns, s.kUsed⟩
  | Except.ok cands =>
    match skill_rerank_v02go pd.1 required_skills cands with
    | Except.error u => ⟨Except.error u, s.builds, s.teardowns, s.kUsed⟩
    | Except.ok rl =>
      match topCandidatesV02 pd.1 required_skills.length (sortRerankV02 rl) top_n with
      | Except.error u => ⟨Except.error u, s.builds, s.teardowns, s.kUsed⟩
      | Except.ok tops =>
        ⟨Except.ok ⟨pd.1.length, tops⟩, s.builds, s.teardowns, s.kUsed⟩

lemma preprocessV01go_all_empty : ∀ (files : List (Str × Str))
    (processed : List (Str × ResumeData)) (docs : List SecDoc),
    (∀ p ∈ files, p.2 = ([] : Str)) →
    preprocessV01go processed docs files = (processed, docs) := by
  intro files
  induction files with
  | nil =>
    intro p d _
    rfl
  | cons f rest ih =>
    intro p d h
    obtain ⟨fn, tx⟩ := f
    have htx : tx = [] := h (fn, tx) (List.mem_cons_self _ _)
    subst htx
    rw [preprocessV01go, if_pos rfl]
    exact ih p d (fun q hq => h q (List.mem_cons_of_mem _ hq))

lemma preprocess_resumes_v02go_all_empty : ∀ (files : List (Str × Str))
    (processed : List (Str × ResumeData)) (docs : List SecDoc),
    (∀ p ∈ files, p.2 = ([] : Str)) →
    preprocess_resumes_v02go processed docs files = (processed, docs) := by
  intro files
  induction files with
  | nil =>
    intro p d _
    rfl
  | cons f rest ih =>
    intro p d h
    obtain ⟨fn, tx⟩ := f
    have htx : tx = [] := h (fn, tx) (List.mem_cons_self _ _)
    subst htx
    rw [preprocess_resumes_v02go, if_pos rfl]
    exact ih p d (fun q hq => h q (List.mem_cons_of_mem _ hq))

/-- C4.  In v01, every run tears the ephemeral index down exactly as often as
it builds it (the `finally` clause covers every exit path).  In v02 the claim
fails on the code: when the similarity query raises after a successful build,
`delete_collection` is never reached — evaluated here at a one-document corpus
with a failing query, the index is built once and torn down zero times. -/
theorem C4_index_teardown :
    (∀ (files : List (Str × Str)) (q : Except Unit (List ScoredChunk))
        (skills : List Str) (n : Nat),
        (rank_resumes_v01 files q skills n).teardowns
          = (rank_resumes_v01 files q skills n).builds)
    ∧ (semantic_search_v02 [⟨"a.txt".toList, "general".toList, "python".toList⟩]
          (Except.error ())).builds = 1
    ∧ (semantic_search_v02 [⟨"a.txt".toList, "general".toList, "python".toList⟩]
          (Except.error ())).teardowns = 0 := by
  refine ⟨?_, rfl, rfl⟩
  intro files q skills n
  simp only [rank_resumes_v01]
  repeat' split
  all_goals rfl

/-- C5.  The claim as frozen is false for v02: with a single resume whose
extracted text is empty (zero usable resumes), the workflow completes and
returns an empty ranking result instead of failing with a "no valid input"
error. -/
theorem C5_counterexample :
    (run_workflow_v02 [("a.pdf".toList, [])] (Except.ok []) ["python".toList] 10).result
      = Except.ok ⟨0, []⟩ := by
  rfl

/-- C5 (amended).  When zero uploaded resumes yield usable (non-empty)
extracted text, the v01 pipeline fails the whole request with the
user-correctable "No valid resumes could be processed" (HTTP 400) error before
building the index; the v02 workflow instead completes normally and returns a
result with zero processed resumes and an empty candidate list. -/
theorem C5_zero_usable_resumes (files : List (Str × Str))
    (q : Except Unit (List ScoredChunk)) (skills : List Str) (n : Nat)
    (h : ∀ p ∈ files, p.2 = ([] : Str)) :
    (rank_resumes_v01 files q skills n).result = Except.error ErrV01.badRequest
    ∧ (run_workflow_v02 files q skills n).result = Except.ok ⟨0, []⟩ := by
  have h1 : preprocessV01 files = ([], []) := preprocessV01go_all_empty files [] [] h
  have h2 : preprocess_resumes_v02 files = ([], []) :=
    preprocess_resumes_v02go_all_empty files [] [] h
  constructor
  · simp [rank_resumes_v01, h1]
  · simp [run_workflow_v02, h2, semantic_search_v02, skill_rerank_v02go, sortRerankV02,
      topCandidatesV02, topCandidatesV02go, List.take_nil]

/-- Witness for C5 at a concrete input. -/
theorem C5_zero_usable_resumes_witness :
    (∀ p ∈ [("a.pdf".toList, ([] : Str))], p.2 = ([] : Str))
    ∧ ((rank_resumes_v01 [("a.pdf".toList, [])] (Except.ok []) ["python".toList] 10).result
          = Except.error ErrV01.badRequest
        ∧ (run_workflow_v02 [("a.pdf".toList, [])] (Except.ok []) ["python".toList] 10).result
          = Except.ok ⟨0, []⟩) :=
  ⟨by decide, C5_zero_usable_resumes [("a.pdf".toList, [])] (Except.ok [])
    ["python".toList] 10 (by decide)⟩

/-- C9.  The claim as frozen is false for v02: the similarity query is issued
with the constant `k=100` even over a one-chunk corpus, so the pipeline asks
the similarity oracle for more neighbors than exist. -/
theorem C9_counterexample :
    (semantic_search_v02 [⟨"b.txt".toList, "skills".toList, "sql".toList⟩]
        (Except.ok [])).kUsed = some 100
    ∧ ([(⟨"b.txt".toList, "skills".toList, "sql".toList⟩ : SecDoc)]).length = 1
    ∧ ¬ (100 ≤ 1) := by
  refine ⟨rfl, rfl, by omega⟩

/-- C9 (amended).  In v01 every issued query uses
`k = min(SEMANTIC_SEARCH_K, number_of_chunks)` (with `SEMANTIC_SEARCH_K = 20`),
so `k` never exceeds the number of chunks; in v02 the query always uses the
constant `k = 100` regardless of the chunk count, which can exceed it. -/
theorem C9_query_k (files : List (Str × Str)) (q : Except Unit (List ScoredChunk))
    (skills : List Str) (n : Nat) :
    ((rank_resumes_v01 files q skills n).kUsed
        = if (preprocessV01 files).1 = [] ∨ (preprocessV01 files).2 = [] then none
          else some (min SEMANTIC_SEARCH_K (preprocessV01 files).2.length))
    ∧ (∀ k, (rank_resumes_v01 files q skills n).kUsed = some k →
        k ≤ (preprocessV01 files).2.length)
    ∧ (∀ (docs : List SecDoc) (q2 : Except Unit (List ScoredChunk)),
        (semantic_search_v02 docs q2).kUsed = if docs = [] then none else some 100) := by
  have hfst : (rank_resumes_v01 files q skills n).kUsed
      = if (preprocessV01 files).1 = [] ∨ (preprocessV01 files).2 = [] then none
        else some (min SEMANTIC_SEARCH_K (preprocessV01 files).2.length) := by
    simp only [rank_resumes_v01]
    by_cases h1 : (preprocessV01 files).1 = []
    · simp [h1]
    · by_cases h2 : (preprocessV01 files).2 = []
      · simp only [h1, h2, if_true, if_false, or_true, if_pos]
        repeat' split
        all_goals rfl
      · simp only [h1, h2, or_self, if_false]
        repeat' split
        all_goals rfl
  refine ⟨hfst, ?_, ?_⟩
  · intro k hk
    rw [hfst] at hk
    by_cases hcond : (preprocessV01 files).1 = [] ∨ (preprocessV01 files).2 = []
    · rw [if_pos hcond] at hk
      exact Option.noConfusion hk
    · rw [if_neg hcond] at hk
      injection hk with hk
      subst hk
      exact min_le_right _ _
  · intro docs q2
    simp only [semantic_search_v02]
    repeat' split
    all_goals rfl

/-- Witness for C9 at a concrete input: one usable resume producing a single
skills chunk, hence `k = min(20, 1) = 1 ≤ 1`. -/
theorem C9_query_k_witness :
    (rank_resumes_v01 [("a.txt".toList, "skills: python".toList)] (Except.ok [])
        ["python".toList] 10).kUsed = some 1
    ∧ 1 ≤ (preprocessV01 [("a.txt".toList, "skills: python".toList)]).2.length := by
  have h := C9_query_k [("a.txt".toList, "skills: python".toList)] (Except.ok [])
    ["python".toList] 10
  have hk : (rank_resumes_v01 [("a.txt".toList, "skills: python".toList)] (Except.ok [])
      ["python".toList] 10).kUsed = some 1 := by
    rw [h.1]
    decide
  exact ⟨hk, h.2.1 1 hk⟩

lemma topCandidatesV01go_scores : ∀ (l : List ReRankV01)
    (processed : List (Str × ResumeData)) (tot i : Nat) (t : List RankedResumeV01),
    topCandidatesV01go processed tot i l = Except.ok t →
    t.map RankedResumeV01.semantic_score
      = l.map (fun c => normalized_score c.raw_distance) := by
  intro l
  induction l with
  | nil =>
    intro p tot i t h
    injection h with h
    subst h
    rfl
  | cons c rest ih =>
    intro p tot i t h
    rw [topCandidatesV01go] at h
    cases hg : dget p c.filename with
    | none =>
      rw [hg] at h
      exact Except.noConfusion h
    | some rd =>
      rw [hg] at h
      cases hrec : topCandidatesV01go p tot (i + 1) rest with
      | error u =>
        rw [hrec] at h
        exact Except.noConfusion h
      | ok tail =>
        rw [hrec] at h
        injection h with h
        subst h
        simp only [List.map_cons]
        rw [ih p tot (i + 1) tail hrec]

lemma runV01_ok_inversion (files : List (Str × Str)) (q : Except Unit (List ScoredChunk))
    (skills : List Str) (n : Nat) (out : OutputV01)
    (hres : (rank_resumes_v01 files q skills n).result = Except.ok out) :
    ∃ l, topCandidatesV01go (preprocessV01 files).1 skills.length 0 l
      = Except.ok out.top_candidates := by
  simp only [rank_resumes_v01] at hres
  by_cases h1 : (preprocessV01 files).1 = []
  · rw [if_pos h1] at hres
    exact absurd hres (by simp)
  · rw [if_neg h1] at hres
    by_cases h2 : (preprocessV01 files).2 = []
    · rw [if_pos h2] at hres
      cases hrr : reRankListV01 (preprocessV01 files).1 skills [] with
      | error u =>
        simp only [hrr] at hres
        exact Except.noConfusion hres
      | ok rl =>
        simp only [hrr] at hres
        cases htc : topCandidatesV01 (preprocessV01 files).1 skills.length
            (sortRerankV01 rl) n with
        | error u =>
          simp only [htc] at hres
          exact Except.noConfusion hres
        | ok tops =>
          simp only [htc, Except.ok.injEq] at hres
          refine ⟨(sortRerankV01 rl).take n, ?_⟩
          rw [← hres]
          exact htc
    · rw [if_neg h2] at hres
      cases q with
      | error u =>
        exact absurd hres (by simp)
      | ok raw =>
        cases hrr : reRankListV01 (preprocessV01 files).1 skills (aggregateV01 raw) with
        | error u =>
          simp only [hrr] at hres
          exact Except.noConfusion hres
        | ok rl =>
          simp only [hrr] at hres
          cases htc : topCandidatesV01 (preprocessV01 files).1 skills.length
              (sortRerankV01 rl) n with
          | error u =>
            simp only [htc] at hres
            exact Except.noConfusion hres
          | ok tops =>
            simp only [htc, Except.ok.injEq] at hres
            refine ⟨(sortRerankV01 rl).take n, ?_⟩
            rw [← hres]
            exact htc

lemma normalized_score_bounds (d : Rat) :
    0 ≤ normalized_score d ∧ normalized_score d ≤ 1 :=
  ⟨le_max_left _ _, max_le (by norm_num) (min_le_left _ _)⟩

lemma normalized_score_antitone (d1 d2 : Rat) (h0 : 0 ≤ d1) (h12 : d1 ≤ d2) :
    normalized_score d2 ≤ normalized_score d1 := by
  unfold normalized_score
  have hp1 : (0 : Rat) < 1 + d1 := by linarith
  have hle : 1 / (1 + d2) ≤ 1 / (1 + d1) := one_div_le_one_div_of_le hp1 (by linarith)
  exact max_le_max le_rfl (min_le_min le_rfl hle)

/-- Witness for C3 at a concrete result list in which one resume contributes
two chunks. -/
theorem C3_best_chunk_aggregation_witness :
    bestPerFilenameV01
        [⟨"a.pdf".toList, "skills".toList, "python sql".toList, 3⟩,
         ⟨"a.pdf".toList, "experience".toList, "built x".toList, 1⟩,
         ⟨"b.pdf".toList, "skills".toList, "java".toList, 2⟩]
    ∧ bestPerFilenameV02
        [⟨"a.pdf".toList, "skills".toList, "python sql".toList, 3⟩,
         ⟨"a.pdf".toList, "experience".toList, "built x".toList, 1⟩,
         ⟨"b.pdf".toList, "skills".toList, "java".toList, 2⟩] :=
  C3_best_chunk_aggregation
    [⟨"a.pdf".toList, "skills".toList, "python sql".toList, 3⟩,
     ⟨"a.pdf".toList, "experience".toList, "built x".toList, 1⟩,
     ⟨"b.pdf".toList, "skills".toList, "java".toList, 2⟩]

/-- C10.  In the distance-based v01 pipeline the published semantic score is
`max(0, min(1, 1/(1 + raw_distance)))`: it always lies in `[0, 1]`, it is
non-increasing in the raw distance over non-negative distances, and the
response rows carry exactly this normalization of the ranked candidates'
raw distances — in particular every candidate of a successful run has a score
of this shape, inside `[0, 1]`. -/
theorem C10_normalized_semantic_score :
    (∀ d : Rat, 0 ≤ normalized_score d ∧ normalized_score d ≤ 1)
    ∧ (∀ d1 d2 : Rat, 0 ≤ d1 → d1 ≤ d2 →
        normalized_score d2 ≤ normalized_score d1)
    ∧ (∀ (processed : List (Str × ResumeData)) (tot : Nat) (l : List ReRankV01)
        (n : Nat) (t : List RankedResumeV01),
        topCandidatesV01 processed tot l n = Except.ok t →
        t.map RankedResumeV01.semantic_score
          = (l.take n).map (fun c => normalized_score c.raw_distance))
    ∧ (∀ (files : List (Str × Str)) (q : Except Unit (List ScoredChunk))
        (skills : List Str) (n : Nat) (out : OutputV01),
        (rank_resumes_v01 files q skills n).result = Except.ok out →
        ∀ r ∈ out.top_candidates,
          (0 ≤ r.semantic_score ∧ r.semantic_score ≤ 1)
          ∧ ∃ d : Rat, r.semantic_score = normalized_score d) := by
  refine ⟨normalized_score_bounds, normalized_score_antitone, ?_, ?_⟩
  · intro p tot l n t h
    exact topCandidatesV01go_scores (l.take n) p tot 0 t h
  · intro files q skills n out hres r hr
    obtain ⟨l, hl⟩ := runV01_ok_inversion files q skills n out hres
    have hmap := topCandidatesV01go_scores l (preprocessV01 files).1 skills.length 0
      out.top_candidates hl
    have hmem : r.semantic_score ∈ out.top_candidates.map RankedResumeV01.semantic_score :=
      List.mem_map_of_mem _ hr
    rw [hmap] at hmem
    obtain ⟨c, -, hc⟩ := List.mem_map.mp hmem
    refine ⟨?_, ⟨c.raw_distance, hc.symm⟩⟩
    rw [← hc]
    exact normalized_score_bounds c.raw_distance

/-- Witness for C10 at concrete inputs: the score of distance 3, the
antitonicity instance 1 ≤ 3, the response-row equation of a concrete
candidate list, and the end-to-end run of one resume. -/
theorem C10_normalized_semantic_score_witness :
    ((0 : Rat) ≤ normalized_score 3 ∧ normalized_score 3 ≤ 1)
    ∧ normalized_score 3 ≤ normalized_score 1
    ∧ ([(⟨1, "a".toList, normalized_score 1, 1, 1, ["python".toList], [],
          "python".toList ++ "...".toList, "x".toList⟩ : RankedResumeV01)].map
            RankedResumeV01.semantic_score
        = ([(⟨"a".toList, 1, 1, ["python".toList], [], "x".toList⟩ : ReRankV01)].take 5).map
            (fun c => normalized_score c.raw_distance))
    ∧ (∀ r ∈ (OutputV01.mk 1
          [⟨1, "a.txt".toList, normalized_score 2, 1, 1, ["python".toList], [],
            "skills: python".toList ++ "...".toList,
            chunkLabel ⟨"a.txt".toList, "skills".toList, "python".toList, 2⟩⟩]).top_candidates,
        (0 ≤ r.semantic_score ∧ r.semantic_score ≤ 1)
        ∧ ∃ d : Rat, r.semantic_score = normalized_score d) :=
  ⟨C10_normalized_semantic_score.1 3,
   C10_normalized_semantic_score.2.1 1 3 (by norm_num) (by norm_num),
   C10_normalized_semantic_score.2.2.1
     [("a".toList, (⟨"python".toList, [("general".toList, "python".toList)]⟩ : ResumeData))]
     1 [⟨"a".toList, 1, 1, ["python".toList], [], "x".toList⟩] 5 _ rfl,
   C10_normalized_semantic_score.2.2.2
     [("a.txt".toList, "skills: python".toList)]
     (Except.ok [⟨"a.txt".toList, "skills".toList, "python".toList, 2⟩])
     ["python".toList] 10 _ rfl⟩
